import Mathlib

/-!
Shallow embedding of the media-player text-buffer manager and of the
segment-index helpers, with proofs about the specified properties.
Times are modelled as rationals; the JavaScript arrays become lists and the
in-place mutations become functions returning the updated value.
-/

/-- Maximum time difference, in seconds, for two boundaries to be considered
the same (`MAX_DELTA_BUFFER_TIME` in the source); `0.2 = 1/5`. -/
def MAX_DELTA_BUFFER_TIME : ℚ := 1 / 5

/-- Embeds `areNearlyEqual`: the absolute difference of the two times is at
most the tolerance. -/
def areNearlyEqual (a b : ℚ) : Prop := |a - b| ≤ MAX_DELTA_BUFFER_TIME

/-- Subtraction of rationals expressed through `mkRat`, used only to obtain a
kernel-evaluable decision procedure for `areNearlyEqual`. -/
def qsub (a b : ℚ) : ℚ := mkRat (a.num * b.den - b.num * a.den) (a.den * b.den)

theorem qsub_eq (a b : ℚ) : qsub a b = a - b := by
  have ha : ((a.den : ℚ)) ≠ 0 := by exact_mod_cast a.den_nz
  have hb : ((b.den : ℚ)) ≠ 0 := by exact_mod_cast b.den_nz
  rw [qsub, Rat.mkRat_eq_div]
  conv_rhs => rw [← Rat.num_div_den a, ← Rat.num_div_den b]
  rw [div_sub_div _ _ ha hb]
  push_cast
  ring_nf

theorem areNearlyEqual_iff (a b : ℚ) :
    areNearlyEqual a b ↔ a - b ≤ 1 / 5 ∧ b - a ≤ 1 / 5 := by
  unfold areNearlyEqual MAX_DELTA_BUFFER_TIME
  exact abs_sub_le_iff

instance (a b : ℚ) : Decidable (areNearlyEqual a b) :=
  decidable_of_iff (qsub a b ≤ mkRat 1 5 ∧ qsub b a ≤ mkRat 1 5) (by
    rw [qsub_eq, qsub_eq, Rat.mkRat_eq_div, areNearlyEqual_iff]
    push_cast
    exact Iff.rfl)

/-- A cue: start and end times in seconds plus an opaque payload standing in
for the `element` field of the source. -/
structure Cue where
  start : ℚ
  «end» : ℚ
  element : ℕ
deriving DecidableEq

/-- A group of cues (`CuesBuffer` entry in the source): declared range plus
the ordered cue list. -/
structure CuesGroup where
  start : ℚ
  «end» : ℚ
  cues : List Cue
deriving DecidableEq

/-- Embeds `getCueInCues`: scan for the first cue whose end is after the
current time; return it when it already started, absence otherwise. -/
def getCueInCues (currentTime : ℚ) : List Cue → Option Cue
  | [] => none
  | cue :: rest =>
    if currentTime < cue.«end» then
      if currentTime ≥ cue.start then some cue else none
    else getCueInCues currentTime rest

/-- Embeds `removeInCuesAfter`: from the front, the first cue whose `start`
lies strictly before `time` and every later cue are dropped (this is the
literal boundary check of the source, which scans for `time > cue.start`). -/
def removeInCuesAfter (cues : List Cue) (time : ℚ) : List Cue :=
  match cues with
  | [] => []
  | cue :: rest =>
    if time > cue.start then [] else cue :: removeInCuesAfter rest time

/-- Embeds `removeInCuesBefore`: scanning from the back, everything strictly
before the last cue whose `start` lies before `time` is dropped (that cue
itself is kept). -/
def removeInCuesBefore (cues : List Cue) (time : ℚ) : List Cue :=
  match cues with
  | [] => []
  | cue :: rest =>
    if ∃ c ∈ rest, time > c.start then removeInCuesBefore rest time
    else cue :: rest

namespace TextBufferManager

/-- Embeds `TextBufferManager.get`: scan groups for the first one whose end
is after `time`; look inside it when it already started, absence otherwise. -/
def get (cuesBuffer : List CuesGroup) (time : ℚ) : Option Cue :=
  match cuesBuffer with
  | [] => none
  | cuesInfos :: rest =>
    if time < cuesInfos.«end» then
      if time ≥ cuesInfos.start then getCueInCues time cuesInfos.cues
      else none
    else get rest time

/-- Embeds the do/while loop of `insert` (reached when the new group starts
nearly at the current group's start and ends beyond its end): drop every
following group ending before `e`, then resolve against the first survivor. -/
def insertBeyond (cues : List Cue) (s e : ℚ) : List CuesGroup → List CuesGroup
  | [] => [⟨s, e, cues⟩]
  | g :: rest =>
    if e > g.«end» then insertBeyond cues s e rest
    else if areNearlyEqual e g.«end» then ⟨s, e, cues⟩ :: rest
    else ⟨s, e, cues⟩ :: ⟨e, g.«end», removeInCuesBefore g.cues e⟩ :: rest

/-- Embeds `TextBufferManager.insert`: find the first group whose end is
after `s` and resolve the overlap against it following the source's branch
structure; append at the end when no such group exists. -/
def insert (cues : List Cue) (s e : ℚ) : List CuesGroup → List CuesGroup
  | [] => [⟨s, e, cues⟩]
  | g :: rest =>
    if s < g.«end» then
      if areNearlyEqual s g.start then
        if areNearlyEqual e g.«end» then
          ⟨s, e, cues⟩ :: rest
        else if e < g.«end» then
          -- the source passes the group object itself, not its cue list, to
          -- removeInCuesBefore here, so the group's cues stay untouched
          ⟨s, e, cues⟩ :: ⟨e, g.«end», g.cues⟩ :: rest
        else
          insertBeyond cues s e rest
      else if s < g.start then
        if e < g.start then
          ⟨s, e, cues⟩ :: g :: rest
        else if areNearlyEqual e g.start then
          ⟨s, e, cues⟩ :: ⟨e, g.«end», g.cues⟩ :: rest
        else
          ⟨s, e, cues⟩ :: ⟨e, g.«end», removeInCuesBefore g.cues e⟩ :: rest
      else
        if e > g.«end» ∨ areNearlyEqual e g.«end» then
          ⟨g.start, s, removeInCuesAfter g.cues s⟩ :: ⟨s, e, cues⟩ :: rest
        else
          ⟨s, e, cues⟩ :: rest
    else
      g :: insert cues s e rest

end TextBufferManager

/-- Folds a list of `insert` operations `(cues, start, end)` over a buffer;
the specified scenarios start from the empty buffer `[]`. -/
def applyInserts (B : List CuesGroup) : List (List Cue × ℚ × ℚ) → List CuesGroup
  | [] => B
  | op :: ops => applyInserts (TextBufferManager.insert op.1 op.2.1 op.2.2 B) ops

example : TextBufferManager.insert [⟨0, 10, 0⟩] 0 10 [] = [⟨0, 10, [⟨0, 10, 0⟩]⟩] := by
  decide

example :
    TextBufferManager.insert [] 5 15 (TextBufferManager.insert [] 10 20 (TextBufferManager.insert [] 0 10 [])) =
      [⟨0, 5, []⟩, ⟨5, 15, []⟩, ⟨10, 20, []⟩] := by
  decide

theorem areNearlyEqual_refl (a : ℚ) : areNearlyEqual a a := by
  unfold areNearlyEqual
  rw [sub_self, abs_zero, MAX_DELTA_BUFFER_TIME]
  norm_num

/-- Inserting a range whose boundaries are both nearly equal to those of the
first group ending after `s` replaces exactly that group, leaving the skipped
prefix and the tail untouched. -/
theorem insert_skips_then_replaces (cues : List Cue) (s e : ℚ)
    (P : List CuesGroup) (g : CuesGroup) (R : List CuesGroup)
    (hP : ∀ p ∈ P, p.«end» ≤ s) (hs : s < g.«end»)
    (h1 : areNearlyEqual s g.start) (h2 : areNearlyEqual e g.«end») :
    TextBufferManager.insert cues s e (P ++ g :: R) = P ++ ⟨s, e, cues⟩ :: R := by
  induction P with
  | nil =>
    simp only [List.nil_append, TextBufferManager.insert]
    rw [if_pos hs, if_pos h1, if_pos h2]
  | cons p P ih =>
    have hp : ¬ s < p.«end» := not_lt.mpr (hP p (List.mem_cons_self p P))
    simp only [List.cons_append, TextBufferManager.insert]
    rw [if_neg hp]
    simp only [List.append_eq]
    rw [ih (fun q hq => hP q (List.mem_cons_of_mem p hq))]

theorem insertBeyond_shape (cues : List Cue) (s e : ℚ) :
    ∀ L : List CuesGroup, ∃ R, TextBufferManager.insertBeyond cues s e L = ⟨s, e, cues⟩ :: R := by
  intro L
  induction L with
  | nil => exact ⟨[], rfl⟩
  | cons g rest ih =>
    by_cases h1 : e > g.«end»
    · obtain ⟨R, hR⟩ := ih
      exact ⟨R, by simp only [TextBufferManager.insertBeyond]; rw [if_pos h1, hR]⟩
    · by_cases h2 : areNearlyEqual e g.«end»
      · exact ⟨rest, by simp only [TextBufferManager.insertBeyond]; rw [if_neg h1, if_pos h2]⟩
      · exact ⟨⟨e, g.«end», removeInCuesBefore g.cues e⟩ :: rest, by
          simp only [TextBufferManager.insertBeyond]; rw [if_neg h1, if_neg h2]⟩

/-- The result of an insertion always decomposes as a (possibly empty) prefix
of groups ending at or before `s`, then the freshly inserted group, then a
tail. -/
theorem insert_decomp (cues : List Cue) (s e : ℚ) :
    ∀ B : List CuesGroup, ∃ P R,
      TextBufferManager.insert cues s e B = P ++ ⟨s, e, cues⟩ :: R ∧
      ∀ p ∈ P, p.«end» ≤ s := by
  intro B
  induction B with
  | nil => exact ⟨[], [], rfl, by simp⟩
  | cons g rest ih =>
    by_cases h1 : s < g.«end»
    · by_cases h2 : areNearlyEqual s g.start
      · by_cases h3 : areNearlyEqual e g.«end»
        · exact ⟨[], rest, by
            simp only [TextBufferManager.insert]; rw [if_pos h1, if_pos h2, if_pos h3]; rfl, by simp⟩
        · by_cases h4 : e < g.«end»
          · exact ⟨[], ⟨e, g.«end», g.cues⟩ :: rest, by
              simp only [TextBufferManager.insert]
              rw [if_pos h1, if_pos h2, if_neg h3, if_pos h4]; rfl, by simp⟩
          · obtain ⟨R, hR⟩ := insertBeyond_shape cues s e rest
            exact ⟨[], R, by
              simp only [TextBufferManager.insert]
              rw [if_pos h1, if_pos h2, if_neg h3, if_neg h4, hR]; rfl, by simp⟩
      · by_cases h5 : s < g.start
        · by_cases h6 : e < g.start
          · exact ⟨[], g :: rest, by
              simp only [TextBufferManager.insert]
              rw [if_pos h1, if_neg h2, if_pos h5, if_pos h6]; rfl, by simp⟩
          · by_cases h7 : areNearlyEqual e g.start
            · exact ⟨[], ⟨e, g.«end», g.cues⟩ :: rest, by
                simp only [TextBufferManager.insert]
                rw [if_pos h1, if_neg h2, if_pos h5, if_neg h6, if_pos h7]; rfl, by simp⟩
            · exact ⟨[], ⟨e, g.«end», removeInCuesBefore g.cues e⟩ :: rest, by
                simp only [TextBufferManager.insert]
                rw [if_pos h1, if_neg h2, if_pos h5, if_neg h6, if_neg h7]; rfl, by simp⟩
        · by_cases h8 : e > g.«end» ∨ areNearlyEqual e g.«end»
          · refine ⟨[⟨g.start, s, removeInCuesAfter g.cues s⟩], rest, by
              simp only [TextBufferManager.insert]
              rw [if_pos h1, if_neg h2, if_neg h5, if_pos h8]; rfl, ?_⟩
            intro p hp
            rcases List.mem_singleton.mp hp with rfl
            exact le_refl s
          · exact ⟨[], rest, by
              simp only [TextBufferManager.insert]
              rw [if_pos h1, if_neg h2, if_neg h5, if_neg h8]; rfl, by simp⟩
    · obtain ⟨P, R, hPR, hP⟩ := ih
      refine ⟨g :: P, R, ?_, ?_⟩
      · simp only [TextBufferManager.insert]
        rw [if_neg h1, hPR]; rfl
      · intro p hp
        rcases List.mem_cons.mp hp with rfl | hp
        · exact not_lt.mp h1
        · exact hP p hp

/-- Claim C4: inserting the identical `(cues, start, end)` twice in a row yields a
buffer equal, as a value, to the buffer after a single insertion; hence
`get` agrees everywhere (in particular on `[start, end)`), which matches the
idempotence property including reference stability as value identity. -/
theorem insert_idempotent (B : List CuesGroup) (cues : List Cue) (s e : ℚ)
    (h : s < e) :
    TextBufferManager.insert cues s e (TextBufferManager.insert cues s e B) =
        TextBufferManager.insert cues s e B ∧
      ∀ t : ℚ, s ≤ t → t < e →
        TextBufferManager.get
            (TextBufferManager.insert cues s e (TextBufferManager.insert cues s e B)) t =
          TextBufferManager.get (TextBufferManager.insert cues s e B) t := by
  obtain ⟨P, R, hPR, hP⟩ := insert_decomp cues s e B
  have key : TextBufferManager.insert cues s e (TextBufferManager.insert cues s e B) =
      TextBufferManager.insert cues s e B := by
    rw [hPR]
    exact insert_skips_then_replaces cues s e P ⟨s, e, cues⟩ R hP h
      (areNearlyEqual_refl s) (areNearlyEqual_refl e)
  exact ⟨key, fun t _ _ => by rw [key]⟩

theorem insert_idempotent_witness :
    (0 : ℚ) < 10 ∧
      TextBufferManager.insert [⟨0, 10, 0⟩] 0 10
          (TextBufferManager.insert [⟨0, 10, 0⟩] 0 10 []) =
        TextBufferManager.insert [⟨0, 10, 0⟩] 0 10 [] :=
  ⟨by norm_num, (insert_idempotent [] [⟨0, 10, 0⟩] 0 10 (by norm_num)).1⟩

/-- Claim C3, counterexample: in the store
built by inserting `[0,10)` then `[10,20)`, the group `g = [10,20)` has both
boundaries within tolerance of the inserted range `[9.9, 20.1)`, yet after
that insertion `g` is still present in the store (the insertion resolved
against the earlier group `[0,10)` instead). -/
theorem tolerance_snap_cex :
    areNearlyEqual (mkRat 99 10) (CuesGroup.start ⟨10, 20, []⟩) ∧
      areNearlyEqual (mkRat 201 10) (CuesGroup.«end» ⟨10, 20, []⟩) ∧
      (⟨10, 20, []⟩ : CuesGroup) ∈
        TextBufferManager.insert [] (mkRat 99 10) (mkRat 201 10)
          (TextBufferManager.insert [] 10 20 (TextBufferManager.insert [] 0 10 [])) := by
  decide

/-- Claim C3, amended: when `g` is the first group of the store whose
end lies after `s` (every earlier group ends at or before `s`), and both
boundaries of the inserted range are within tolerance of `g`'s boundaries,
then the new group `{start := s, end := e, cues}` fully replaces `g` in
place. -/
theorem tolerance_snap_first_group (cues : List Cue) (s e : ℚ)
    (P : List CuesGroup) (g : CuesGroup) (R : List CuesGroup)
    (hP : ∀ p ∈ P, p.«end» ≤ s) (hs : s < g.«end»)
    (h1 : areNearlyEqual s g.start) (h2 : areNearlyEqual e g.«end») :
    TextBufferManager.insert cues s e (P ++ g :: R) = P ++ ⟨s, e, cues⟩ :: R :=
  insert_skips_then_replaces cues s e P g R hP hs h1 h2

theorem tolerance_snap_first_group_witness :
    (∀ p ∈ [(⟨0, 5, []⟩ : CuesGroup)], p.«end» ≤ (mkRat 99 10)) ∧
      (mkRat 99 10) < (20 : ℚ) ∧
      areNearlyEqual (mkRat 99 10) 10 ∧ areNearlyEqual (mkRat 201 10) 20 ∧
      TextBufferManager.insert [] (mkRat 99 10) (mkRat 201 10)
          ([⟨0, 5, []⟩] ++ ⟨10, 20, []⟩ :: []) =
        [⟨0, 5, []⟩] ++ ⟨mkRat 99 10, mkRat 201 10, []⟩ :: [] :=
  ⟨by decide, by decide, by decide, by decide,
    tolerance_snap_first_group [] (mkRat 99 10) (mkRat 201 10)
      [⟨0, 5, []⟩] ⟨10, 20, []⟩ [] (by decide) (by decide) (by decide) (by decide)⟩

/-- Claim C5, code-bug evidence (start nearly equal to the group's start, end
strictly inside it): the code comments say cues preceding `end` are removed
from the surviving group, but the call passes the group object instead of
its cue array to `removeInCuesBefore`, so no cue at all is removed: both
cues `[0,1)` and `[1,2)` start before `5` and both survive. -/
theorem insert_shorter_range_keeps_stale_cues :
    TextBufferManager.insert [⟨0, 5, 2⟩] 0 5
        (TextBufferManager.insert [⟨0, 1, 0⟩, ⟨1, 2, 1⟩] 0 10 []) =
      [⟨0, 5, [⟨0, 5, 2⟩]⟩, ⟨5, 10, [⟨0, 1, 0⟩, ⟨1, 2, 1⟩]⟩] := by
  decide

/-- Claim C6, code-bug evidence (start strictly inside the group, end beyond its
end): the claim and the helper's own documentation call for removing exactly
the cues at or after `start = 4`, retaining `[0,1)`; but `removeInCuesAfter`
drops everything from the first cue whose start precedes the boundary, so
the surviving group `[0,4)` ends up with an empty cue list. -/
theorem insert_overlap_after_drops_kept_cues :
    TextBufferManager.insert [⟨4, 12, 2⟩] 4 12
        (TextBufferManager.insert [⟨0, 1, 0⟩, ⟨4, 5, 1⟩] 0 10 []) =
      [⟨0, 4, []⟩, ⟨4, 12, [⟨4, 12, 2⟩]⟩] := by
  decide

/-- In a chain of intervals linked by `end ≤ next start`, the head's end
bounds the start of every later element (each member having `start ≤ end`). -/
theorem chain_head_le_mem {α : Type} (fs fe : α → ℚ) :
    ∀ (x : α) (l : List α),
      List.Chain' (fun a b => fe a ≤ fs b) (x :: l) →
      (∀ y ∈ l, fs y ≤ fe y) →
      ∀ y ∈ l, fe x ≤ fs y := by
  intro x l
  induction l generalizing x with
  | nil => intro _ _ y hy; cases hy
  | cons h t ih =>
    intro hc hm y hy
    have hxh : fe x ≤ fs h := (List.chain'_cons.mp hc).1
    rcases List.mem_cons.mp hy with rfl | hy
    · exact hxh
    · have ht := ih h (List.chain'_cons.mp hc).2
        (fun z hz => hm z (List.mem_cons_of_mem h hz)) y hy
      calc fe x ≤ fs h := hxh
        _ ≤ fe h := hm h (List.mem_cons_self h t)
        _ ≤ fs y := ht

/-- Cue-level ordering invariant of a group: cues sorted and mutually
non-overlapping, each with a well-formed range. -/
def CuesOrdered (cues : List Cue) : Prop :=
  List.Chain' (fun a b => a.«end» ≤ b.start) cues ∧ ∀ c ∈ cues, c.start ≤ c.«end»

/-- Store-level ordering invariant: groups sorted and mutually
non-overlapping, each well-formed with ordered cues. -/
def StoreOrdered (B : List CuesGroup) : Prop :=
  List.Chain' (fun a b => a.«end» ≤ b.start) B ∧
    ∀ g ∈ B, g.start ≤ g.«end» ∧ CuesOrdered g.cues

theorem getCueInCues_eq_some_iff (t : ℚ) (c : Cue) :
    ∀ cues : List Cue, CuesOrdered cues →
      (getCueInCues t cues = some c ↔ c ∈ cues ∧ c.start ≤ t ∧ t < c.«end») := by
  intro cues
  induction cues with
  | nil => intro _; simp [getCueInCues]
  | cons cue rest ih =>
    intro hord
    obtain ⟨hch, hm⟩ := hord
    have hordr : CuesOrdered rest :=
      ⟨hch.tail, fun x hx => hm x (List.mem_cons_of_mem cue hx)⟩
    have hbound : ∀ y ∈ rest, cue.«end» ≤ y.start :=
      chain_head_le_mem Cue.start Cue.«end» cue rest hch
        (fun y hy => hm y (List.mem_cons_of_mem cue hy))
    by_cases h1 : t < cue.«end»
    · by_cases h2 : t ≥ cue.start
      · simp only [getCueInCues, if_pos h1, if_pos h2]
        constructor
        · intro h
          rw [Option.some_inj] at h
          subst h
          exact ⟨List.mem_cons_self cue rest, h2, h1⟩
        · rintro ⟨hc, hcs, hce⟩
          rcases List.mem_cons.mp hc with rfl | hc
          · rfl
          · exact absurd (le_trans (hbound c hc) hcs) (not_le.mpr h1)
      · simp only [getCueInCues, if_pos h1, if_neg h2]
        constructor
        · intro h; cases h
        · rintro ⟨hc, hcs, hce⟩
          rcases List.mem_cons.mp hc with rfl | hc
          · exact absurd hcs h2
          · exact absurd (le_trans (hbound c hc) hcs) (not_le.mpr h1)
    · simp only [getCueInCues, if_neg h1]
      rw [ih hordr]
      constructor
      · rintro ⟨hc, hcs, hce⟩
        exact ⟨List.mem_cons_of_mem cue hc, hcs, hce⟩
      · rintro ⟨hc, hcs, hce⟩
        rcases List.mem_cons.mp hc with rfl | hc
        · exact absurd hce h1
        · exact ⟨hc, hcs, hce⟩

/-- Claim C2: on a store satisfying the ordering invariant, `get` returns exactly the
cue whose own range contains `t`, inside the (unique, hence first) group
whose range contains `t`; every gap, sub-gap or out-of-range time yields
absence (no other result is possible, by the equivalence). -/
theorem get_eq_some_iff (t : ℚ) (c : Cue) :
    ∀ B : List CuesGroup, StoreOrdered B →
      (TextBufferManager.get B t = some c ↔
        ∃ g ∈ B, (g.start ≤ t ∧ t < g.«end») ∧
          c ∈ g.cues ∧ c.start ≤ t ∧ t < c.«end») := by
  intro B
  induction B with
  | nil => intro _; simp [TextBufferManager.get]
  | cons g rest ih =>
    intro hord
    obtain ⟨hch, hm⟩ := hord
    have hordr : StoreOrdered rest :=
      ⟨hch.tail, fun x hx => hm x (List.mem_cons_of_mem g hx)⟩
    have hbound : ∀ y ∈ rest, g.«end» ≤ y.start :=
      chain_head_le_mem CuesGroup.start CuesGroup.«end» g rest hch
        (fun y hy => (hm y (List.mem_cons_of_mem g hy)).1)
    by_cases h1 : t < g.«end»
    · by_cases h2 : t ≥ g.start
      · simp only [TextBufferManager.get, if_pos h1, if_pos h2]
        rw [getCueInCues_eq_some_iff t c g.cues (hm g (List.mem_cons_self g rest)).2]
        constructor
        · rintro ⟨hc, hcs, hce⟩
          exact ⟨g, List.mem_cons_self g rest, ⟨h2, h1⟩, hc, hcs, hce⟩
        · rintro ⟨g', hg', ⟨hgs, hge⟩, hc, hcs, hce⟩
          rcases List.mem_cons.mp hg' with rfl | hg'
          · exact ⟨hc, hcs, hce⟩
          · exact absurd (le_trans (hbound g' hg') hgs) (not_le.mpr h1)
      · simp only [TextBufferManager.get, if_pos h1, if_neg h2]
        constructor
        · intro h; cases h
        · rintro ⟨g', hg', ⟨hgs, hge⟩, _, _, _⟩
          rcases List.mem_cons.mp hg' with rfl | hg'
          · exact absurd hgs h2
          · exact absurd (le_trans (hbound g' hg') hgs) (not_le.mpr h1)
    · simp only [TextBufferManager.get, if_neg h1]
      rw [ih hordr]
      constructor
      · rintro ⟨g', hg', hprops⟩
        exact ⟨g', List.mem_cons_of_mem g hg', hprops⟩
      · rintro ⟨g', hg', ⟨hgs, hge⟩, hrest⟩
        rcases List.mem_cons.mp hg' with rfl | hg'
        · exact absurd hge h1
        · exact ⟨g', hg', ⟨hgs, hge⟩, hrest⟩

theorem get_eq_some_iff_witness :
    StoreOrdered (TextBufferManager.insert [⟨0, 10, 0⟩] 0 10 []) ∧
      (TextBufferManager.get (TextBufferManager.insert [⟨0, 10, 0⟩] 0 10 []) 5 =
          some ⟨0, 10, 0⟩ ↔
        ∃ g ∈ TextBufferManager.insert [⟨0, 10, 0⟩] 0 10 [],
          (g.start ≤ 5 ∧ (5 : ℚ) < g.«end») ∧
            (⟨0, 10, 0⟩ : Cue) ∈ g.cues ∧
              Cue.start ⟨0, 10, 0⟩ ≤ 5 ∧ (5 : ℚ) < Cue.«end» ⟨0, 10, 0⟩) ∧
      TextBufferManager.get (TextBufferManager.insert [⟨0, 10, 0⟩] 0 10 []) 5 =
          some ⟨0, 10, 0⟩ ∧
      TextBufferManager.get (TextBufferManager.insert [⟨0, 10, 0⟩] 0 10 []) 15 = none := by
  have hB : TextBufferManager.insert [⟨0, 10, 0⟩] 0 10 [] =
      [⟨0, 10, [⟨0, 10, 0⟩]⟩] := by decide
  have hord : StoreOrdered (TextBufferManager.insert [⟨0, 10, 0⟩] 0 10 []) := by
    rw [hB]
    refine ⟨by simp, ?_⟩
    intro g hg
    rcases List.mem_singleton.mp hg with rfl
    refine ⟨by norm_num, by simp, ?_⟩
    intro c hc
    rcases List.mem_singleton.mp hc with rfl
    norm_num
  exact ⟨hord,
    get_eq_some_iff 5 ⟨0, 10, 0⟩ (TextBufferManager.insert [⟨0, 10, 0⟩] 0 10 []) hord,
    by decide, by decide⟩

/-- Claim C1, counterexample: the
three inserts `(0,10)`, `(10,20)`, `(5,15)` (each with `start < end`) on an
initially empty buffer produce `[0,5), [5,15), [10,20)`, where the adjacent
groups `[5,15)` and `[10,20)` overlap (`15 ≤ 10` fails). -/
theorem insert_seq_invariant_cex :
    (∀ op ∈ [(([] : List Cue), (0 : ℚ), (10 : ℚ)), ([], 10, 20), ([], 5, 15)],
        op.2.1 < op.2.2) ∧
      ¬ List.Pairwise (fun a b : CuesGroup => a.start ≤ b.start ∧ a.«end» ≤ b.start)
          (applyInserts [] [([], 0, 10), ([], 10, 20), ([], 5, 15)]) := by
  have hres : applyInserts [] [(([] : List Cue), (0 : ℚ), (10 : ℚ)), ([], 10, 20), ([], 5, 15)] =
      [⟨0, 5, []⟩, ⟨5, 15, []⟩, ⟨10, 20, []⟩] := by decide
  refine ⟨by decide, ?_⟩
  rw [hres]
  intro hpw
  have h2 := (List.pairwise_cons.mp hpw).2
  have h3 := (List.pairwise_cons.mp h2).1 ⟨10, 20, []⟩ (by simp)
  exact absurd h3.2 (by norm_num)

/-- A group that is exactly the `k`-th segment of the uniform partition with
segment duration `D`. -/
def SegAligned (D : ℚ) (g : CuesGroup) : Prop :=
  ∃ k : ℕ, g.start = (k : ℚ) * D ∧ g.«end» = ((k : ℚ) + 1) * D

theorem areNearlyEqual_mul_nat_iff (D : ℚ) (hD : 1 / 5 < D) (k j : ℕ) :
    areNearlyEqual ((k : ℚ) * D) ((j : ℚ) * D) ↔ k = j := by
  have hD0 : (0 : ℚ) < D := lt_trans (by norm_num) hD
  unfold areNearlyEqual MAX_DELTA_BUFFER_TIME
  rw [← sub_mul, abs_mul, abs_of_pos hD0]
  constructor
  · intro h
    by_contra hne
    have hzz : ((k : ℤ) - (j : ℤ)) ≠ 0 := sub_ne_zero.mpr (by exact_mod_cast hne)
    have h1 : (1 : ℚ) ≤ |(k : ℚ) - (j : ℚ)| := by
      have hint := Int.one_le_abs hzz
      have : ((1 : ℤ) : ℚ) ≤ ((|(k : ℤ) - (j : ℤ)| : ℤ) : ℚ) := by exact_mod_cast hint
      rw [Int.cast_abs] at this
      push_cast at this
      linarith
    have hmul : (1 : ℚ) * D ≤ |(k : ℚ) - (j : ℚ)| * D :=
      mul_le_mul_of_nonneg_right h1 hD0.le
    rw [one_mul] at hmul
    linarith
  · rintro rfl
    rw [sub_self, abs_zero, zero_mul]
    norm_num

/-- One aligned-segment insertion preserves the chain of disjoint groups,
keeps every group aligned, and keeps any lower bound on the head start that
also bounds the inserted start. -/
theorem insert_aligned_step (D : ℚ) (hD : 1 / 5 < D) (cues : List Cue) (k : ℕ) :
    ∀ B : List CuesGroup,
      List.Chain' (fun a b => a.«end» ≤ b.start) B →
      (∀ g ∈ B, SegAligned D g) →
      List.Chain' (fun a b => a.«end» ≤ b.start)
          (TextBufferManager.insert cues ((k : ℚ) * D) (((k : ℚ) + 1) * D) B) ∧
        (∀ g ∈ TextBufferManager.insert cues ((k : ℚ) * D) (((k : ℚ) + 1) * D) B,
          SegAligned D g) ∧
        ∀ x : ℚ, x ≤ (k : ℚ) * D →
          (∀ y ∈ B.head?, x ≤ y.start) →
          ∀ y ∈ (TextBufferManager.insert cues ((k : ℚ) * D) (((k : ℚ) + 1) * D) B).head?,
            x ≤ y.start := by
  have hD0 : (0 : ℚ) < D := lt_trans (by norm_num) hD
  intro B
  induction B with
  | nil =>
    intro _ _
    refine ⟨by simp [TextBufferManager.insert], ?_, ?_⟩
    · intro g hg
      simp only [TextBufferManager.insert] at hg
      rcases List.mem_singleton.mp hg with rfl
      exact ⟨k, rfl, rfl⟩
    · intro x hx _ y hy
      simp only [TextBufferManager.insert, List.head?_cons, Option.mem_def,
        Option.some.injEq] at hy
      subst hy
      exact hx
  | cons g rest ih =>
    intro hch hal
    obtain ⟨j, hjs, hje⟩ := hal g (List.mem_cons_self g rest)
    have hchr : List.Chain' (fun a b => a.«end» ≤ b.start) rest := hch.tail
    have halr : ∀ g' ∈ rest, SegAligned D g' :=
      fun g' hmem => hal g' (List.mem_cons_of_mem g hmem)
    have hheadr : ∀ y ∈ rest.head?, g.«end» ≤ y.start := (List.chain'_cons'.mp hch).1
    by_cases hlt : (k : ℚ) * D < g.«end»
    · have hkj : k ≤ j := by
        rw [hje] at hlt
        have hq : (k : ℚ) < (j : ℚ) + 1 := (mul_lt_mul_right hD0).mp hlt
        have hn : k < j + 1 := by exact_mod_cast hq
        exact Nat.lt_succ_iff.mp hn
      rcases eq_or_lt_of_le hkj with rfl | hkj'
      · -- same segment index: exact tolerance replace
        have hn1 : areNearlyEqual ((k : ℚ) * D) g.start := by
          rw [hjs]; exact (areNearlyEqual_mul_nat_iff D hD k k).mpr rfl
        have hn2 : areNearlyEqual (((k : ℚ) + 1) * D) g.«end» := by
          rw [hje]; exact areNearlyEqual_refl _
        have hres : TextBufferManager.insert cues ((k : ℚ) * D) (((k : ℚ) + 1) * D) (g :: rest) =
            ⟨(k : ℚ) * D, ((k : ℚ) + 1) * D, cues⟩ :: rest := by
          simp only [TextBufferManager.insert]
          rw [if_pos hlt, if_pos hn1, if_pos hn2]
        rw [hres]
        refine ⟨?_, ?_, ?_⟩
        · refine List.chain'_cons'.mpr ⟨?_, hchr⟩
          intro y hy
          have := hheadr y hy
          rw [hje] at this
          exact this
        · intro g' hg'
          rcases List.mem_cons.mp hg' with rfl | hg'
          · exact ⟨k, rfl, rfl⟩
          · exact halr g' hg'
        · intro x hx _ y hy
          simp only [List.head?_cons, Option.mem_def, Option.some.injEq] at hy
          subst hy
          exact hx
      · -- the inserted segment lies strictly before the current group
        have hne : ¬ areNearlyEqual ((k : ℚ) * D) g.start := by
          rw [hjs, areNearlyEqual_mul_nat_iff D hD]
          exact Nat.ne_of_lt hkj'
        have hslt : (k : ℚ) * D < g.start := by
          rw [hjs]
          exact mul_lt_mul_of_pos_right (by exact_mod_cast hkj') hD0
        rcases lt_or_eq_of_le (Nat.succ_le_of_lt hkj') with hk1j | hk1j
        · -- strictly disjoint: plain insert before
          have helt : ((k : ℚ) + 1) * D < g.start := by
            rw [hjs]
            refine mul_lt_mul_of_pos_right ?_ hD0
            exact_mod_cast hk1j
          have hres : TextBufferManager.insert cues ((k : ℚ) * D) (((k : ℚ) + 1) * D) (g :: rest) =
              ⟨(k : ℚ) * D, ((k : ℚ) + 1) * D, cues⟩ :: g :: rest := by
            simp only [TextBufferManager.insert]
            rw [if_pos hlt, if_neg hne, if_pos hslt, if_pos helt]
          rw [hres]
          refine ⟨?_, ?_, ?_⟩
          · exact List.chain'_cons'.mpr ⟨by
              intro y hy
              simp only [List.head?_cons, Option.mem_def, Option.some.injEq] at hy
              subst hy
              exact helt.le, hch⟩
          · intro g' hg'
            rcases List.mem_cons.mp hg' with rfl | hg'
            · exact ⟨k, rfl, rfl⟩
            · exact hal g' hg'
          · intro x hx _ y hy
            simp only [List.head?_cons, Option.mem_def, Option.some.injEq] at hy
            subst hy
            exact hx
        · -- touching: the segment ends exactly at the group's start
          have heq : ((k : ℚ) + 1) * D = g.start := by
            rw [hjs]
            congr 1
            exact_mod_cast hk1j
          have hnlt : ¬ ((k : ℚ) + 1) * D < g.start := by
            rw [heq]
            exact lt_irrefl _
          have hn3 : areNearlyEqual (((k : ℚ) + 1) * D) g.start := by
            rw [heq]; exact areNearlyEqual_refl _
          have hres : TextBufferManager.insert cues ((k : ℚ) * D) (((k : ℚ) + 1) * D) (g :: rest) =
              ⟨(k : ℚ) * D, ((k : ℚ) + 1) * D, cues⟩ ::
                ⟨((k : ℚ) + 1) * D, g.«end», g.cues⟩ :: rest := by
            simp only [TextBufferManager.insert]
            rw [if_pos hlt, if_neg hne, if_pos hslt, if_neg hnlt, if_pos hn3]
          rw [hres]
          refine ⟨?_, ?_, ?_⟩
          · refine List.chain'_cons'.mpr ⟨?_, ?_⟩
            · intro y hy
              simp only [List.head?_cons, Option.mem_def, Option.some.injEq] at hy
              subst hy
              exact le_refl _
            · refine List.chain'_cons'.mpr ⟨?_, hchr⟩
              intro y hy
              exact hheadr y hy
          · intro g' hg'
            rcases List.mem_cons.mp hg' with rfl | hg'
            · exact ⟨k, rfl, rfl⟩
            · rcases List.mem_cons.mp hg' with rfl | hg'
              · exact ⟨j, by rw [heq, hjs], hje⟩
              · exact halr g' hg'
          · intro x hx _ y hy
            simp only [List.head?_cons, Option.mem_def, Option.some.injEq] at hy
            subst hy
            exact hx
    · -- the current group ends at or before the inserted start: skip it
      have hres : TextBufferManager.insert cues ((k : ℚ) * D) (((k : ℚ) + 1) * D) (g :: rest) =
          g :: TextBufferManager.insert cues ((k : ℚ) * D) (((k : ℚ) + 1) * D) rest := by
        simp only [TextBufferManager.insert]
        rw [if_neg hlt]
      obtain ⟨ihc, ihm, ihh⟩ := ih hchr halr
      rw [hres]
      refine ⟨?_, ?_, ?_⟩
      · exact List.chain'_cons'.mpr ⟨ihh g.«end» (not_lt.mp hlt) hheadr, ihc⟩
      · intro g' hg'
        rcases List.mem_cons.mp hg' with rfl | hg'
        · exact ⟨j, hjs, hje⟩
        · exact ihm g' hg'
      · intro x hx hhead y hy
        simp only [List.head?_cons, Option.mem_def, Option.some.injEq] at hy
        subst hy
        exact hhead g (by simp)

theorem applyInserts_aligned (D : ℚ) (hD : 1 / 5 < D) :
    ∀ (ops : List (List Cue × ℕ)) (B : List CuesGroup),
      List.Chain' (fun a b => a.«end» ≤ b.start) B →
      (∀ g ∈ B, SegAligned D g) →
      List.Chain' (fun a b => a.«end» ≤ b.start)
          (applyInserts B
            (ops.map fun op => (op.1, (op.2 : ℚ) * D, ((op.2 : ℚ) + 1) * D))) ∧
        ∀ g ∈ applyInserts B
            (ops.map fun op => (op.1, (op.2 : ℚ) * D, ((op.2 : ℚ) + 1) * D)),
          SegAligned D g := by
  intro ops
  induction ops with
  | nil =>
    intro B hc ha
    exact ⟨hc, ha⟩
  | cons op ops ih =>
    intro B hc ha
    simp only [List.map_cons, applyInserts]
    obtain ⟨hc', ha', _⟩ := insert_aligned_step D hD op.1 op.2 B hc ha
    exact ih _ hc' ha'

theorem chain'_disjoint_pairwise :
    ∀ l : List CuesGroup,
      List.Chain' (fun a b => a.«end» ≤ b.start) l →
      (∀ g ∈ l, g.start ≤ g.«end») →
      List.Pairwise (fun a b => a.start ≤ b.start ∧ a.«end» ≤ b.start) l := by
  intro l
  induction l with
  | nil => intro _ _; exact List.Pairwise.nil
  | cons g rest ih =>
    intro hc hm
    refine List.Pairwise.cons ?_ (ih hc.tail fun y hy => hm y (List.mem_cons_of_mem g hy))
    intro y hy
    have hge := chain_head_le_mem CuesGroup.start CuesGroup.«end» g rest hc
      (fun z hz => hm z (List.mem_cons_of_mem g hz)) y hy
    exact ⟨le_trans (hm g (List.mem_cons_self g rest)) hge, hge⟩

/-- Claim C1, amended: for every sequence of inserts of aligned segments
`[k·D, (k+1)·D)` of a common duration `D` exceeding the tolerance, applied
to an initially empty buffer, the resulting groups are sorted ascending by
start and any two distinct groups are non-overlapping (`gi.end ≤ gj.start`
for `i < j`). -/
theorem insert_aligned_seq_sorted_disjoint (D : ℚ) (hD : 1 / 5 < D)
    (ops : List (List Cue × ℕ)) :
    List.Pairwise (fun a b => a.start ≤ b.start ∧ a.«end» ≤ b.start)
      (applyInserts []
        (ops.map fun op => (op.1, (op.2 : ℚ) * D, ((op.2 : ℚ) + 1) * D))) := by
  have hD0 : (0 : ℚ) < D := lt_trans (by norm_num) hD
  obtain ⟨hc, ha⟩ := applyInserts_aligned D hD ops [] (by simp) (by simp)
  refine chain'_disjoint_pairwise _ hc ?_
  intro g hg
  obtain ⟨m, hms, hme⟩ := ha g hg
  rw [hms, hme]
  have hstep : (m : ℚ) ≤ (m : ℚ) + 1 := by linarith
  exact mul_le_mul_of_nonneg_right hstep hD0.le

theorem insert_aligned_seq_sorted_disjoint_witness :
    (1 : ℚ) / 5 < 1 ∧
      List.Pairwise (fun a b => a.start ≤ b.start ∧ a.«end» ≤ b.start)
        (applyInserts []
          (([(([] : List Cue), 0), ([], 1), ([], 0)]).map
            fun op => (op.1, (op.2 : ℚ) * 1, ((op.2 : ℚ) + 1) * 1))) :=
  ⟨by norm_num,
    insert_aligned_seq_sorted_disjoint 1 (by norm_num) [([], 0), ([], 1), ([], 0)]⟩

/-- Segment-template index metadata (`{duration, timescale, startNumber,
media}`), with `startNumber` possibly absent. -/
structure TemplateIndex where
  duration : ℚ
  timescale : ℚ
  startNumber : Option ℤ
  media : String

/-- Modelled from the spec: the `Segment` descriptor value object (its
constructor, in a file not present here, stores the produced fields
unchanged). -/
structure Segment where
  id : String
  number : ℤ
  time : ℚ
  init : Bool
  duration : ℚ
  range : Option (ℚ × ℚ)
  indexRange : Option (ℚ × ℚ)
  timescale : ℚ
  media : String

/-- Modelled from the spec: `normalizeRange` (shared helpers file, not
present here) clamps the requested window against the index bounds; a
Template index declares no bounds, so the window comes back unchanged. -/
def normalizeRange (_index : TemplateIndex) (up to_ : ℚ) : ℚ × ℚ := (up, to_)

/-- Embeds the generation loop `for (time = up; time <= to; time += duration)`
of the Template `getSegments`; the source loop never terminates when
`duration ≤ 0` (impossible for a well-formed index), in which case the
embedding returns the empty list. -/
def segTimes (to_ duration : ℚ) (time : ℚ) : List ℚ :=
  if h : 0 < duration ∧ time ≤ to_ then
    time :: segTimes to_ duration (time + duration)
  else []
termination_by (⌊(to_ - time) / duration⌋ + 1).toNat
decreasing_by
  obtain ⟨hd, hle⟩ := h
  have hdne : duration ≠ 0 := ne_of_gt hd
  have hq : (to_ - (time + duration)) / duration = (to_ - time) / duration - 1 := by
    field_simp
    ring
  have h2 : (0 : ℤ) ≤ ⌊(to_ - time) / duration⌋ :=
    Int.floor_nonneg.mpr (div_nonneg (sub_nonneg.mpr hle) hd.le)
  have h3 : ((to_ - time) / duration - 1 : ℚ) = (to_ - time) / duration - ((1 : ℤ) : ℚ) := by
    push_cast
    ring
  simp only [hq, h3, Int.floor_sub_int]
  omega

namespace TemplateIndex

/-- Embeds `getSegments` of the Template index: normalize the window, then
for each loop step emit a descriptor numbered
`floor(time / duration) + startNumber` (1 when absent) with
`time = number * duration`. -/
def getSegments (repId : String) (index : TemplateIndex) (up to_ : ℚ) :
    List Segment :=
  let norm := normalizeRange index up to_
  (segTimes norm.2 index.duration norm.1).map fun time =>
    let number : ℤ := ⌊time / index.duration⌋ + index.startNumber.getD 1
    { id := repId ++ "_" ++ toString number
      number := number
      time := (number : ℚ) * index.duration
      init := false
      duration := index.duration
      range := none
      indexRange := none
      timescale := index.timescale
      media := index.media }

end TemplateIndex

theorem segTimes_scenario : segTimes 10 4 0 = [0, 4, 8] := by
  rw [segTimes]
  norm_num
  rw [segTimes]
  norm_num
  rw [segTimes]
  norm_num
  rw [segTimes]
  norm_num

/-- Claim C7, counterexample: on
`index = {duration: 4, timescale: 1, startNumber: 1, media}`, the window
`[0, 10]` produces descriptors with time fields `4, 8, 12` (the code stamps
`time = number * duration` with `number = floor(time/duration) + 1`), not
`0, 4, 8`. -/
theorem template_getSegments_times_cex :
    (TemplateIndex.getSegments "rep1" ⟨4, 1, some 1, "seg-$Number$"⟩ 0 10).map
        Segment.time = [4, 8, 12] ∧
      (TemplateIndex.getSegments "rep1" ⟨4, 1, some 1, "seg-$Number$"⟩ 0 10).map
          Segment.time ≠ [0, 4, 8] := by
  have hmap : (TemplateIndex.getSegments "rep1" ⟨4, 1, some 1, "seg-$Number$"⟩ 0 10).map
      Segment.time = [4, 8, 12] := by
    unfold TemplateIndex.getSegments normalizeRange
    norm_num [segTimes_scenario]
  refine ⟨hmap, ?_⟩
  rw [hmap]
  decide

/-- Claim C7, amended: `getSegments("rep1", {duration:4, timescale:1,
startNumber:1, media}, 0, 10)` yields exactly three descriptors, numbered
`1, 2, 3`, whose time fields are `4, 8, 12` (each `number * duration`). -/
theorem template_getSegments_scenario :
    (TemplateIndex.getSegments "rep1" ⟨4, 1, some 1, "seg-$Number$"⟩ 0 10).map
        (fun sg => (sg.number, sg.time)) = [(1, 4), (2, 8), (3, 12)] := by
  unfold TemplateIndex.getSegments normalizeRange
  norm_num [segTimes_scenario]

/-- One run of equal-duration segments in a timeline (`{ts, d, r, range}`). -/
structure TimelineElement where
  ts : ℚ
  d : ℚ
  r : ℤ
  range : Option (ℚ × ℚ)
deriving DecidableEq

/-- Timeline-flavoured index metadata: own timescale plus the discovered
timeline. -/
structure TimelineIndex where
  timescale : ℚ
  timeline : List TimelineElement
deriving DecidableEq

/-- Segment-discovery metadata consumed by `_addSegmentInfos`. -/
structure SegmentInfos where
  time : ℚ
  duration : ℚ
  timescale : ℚ
  count : ℤ
  range : Option (ℚ × ℚ)
deriving DecidableEq

namespace BaseIndex

/-- Embeds `Base._addSegmentInfos`: push one timeline element, rescaling
`time` and `duration` by `index.timescale / segmentInfos.timescale` when the
two timescales differ, and always return true; the in-place mutation is
modelled by returning the updated index next to the boolean result. -/
def _addSegmentInfos (index : TimelineIndex) (segmentInfos : SegmentInfos) :
    TimelineIndex × Bool :=
  if segmentInfos.timescale ≠ index.timescale then
    ({ index with
        timeline := index.timeline ++
          [⟨segmentInfos.time / segmentInfos.timescale * index.timescale,
            segmentInfos.duration / segmentInfos.timescale * index.timescale,
            segmentInfos.count, segmentInfos.range⟩] },
      true)
  else
    ({ index with
        timeline := index.timeline ++
          [⟨segmentInfos.time, segmentInfos.duration, segmentInfos.count,
            segmentInfos.range⟩] },
      true)

end BaseIndex

/-- Claim C8: for every index and segment metadata, `_addSegmentInfos` returns true and
appends exactly one timeline element, whose `ts` and `d` are the given time
and duration multiplied by the timescale ratio when the timescales differ
and are taken unchanged otherwise; in particular the specified scenario
(`index.timescale = 1`, empty timeline, metadata `(0, 4, 2, 0, null)`)
appends `{ts: 0, d: 2, r: 0, range: null}` and returns true. -/
theorem addSegmentInfos_appends_rescaled :
    (∀ (index : TimelineIndex) (segmentInfos : SegmentInfos),
        (BaseIndex._addSegmentInfos index segmentInfos).2 = true ∧
          (BaseIndex._addSegmentInfos index segmentInfos).1.timescale =
            index.timescale ∧
          (BaseIndex._addSegmentInfos index segmentInfos).1.timeline =
            index.timeline ++
              [⟨(if segmentInfos.timescale ≠ index.timescale then
                    segmentInfos.time * (index.timescale / segmentInfos.timescale)
                  else segmentInfos.time),
                (if segmentInfos.timescale ≠ index.timescale then
                    segmentInfos.duration * (index.timescale / segmentInfos.timescale)
                  else segmentInfos.duration),
                segmentInfos.count, segmentInfos.range⟩]) ∧
      BaseIndex._addSegmentInfos ⟨1, []⟩ ⟨0, 4, 2, 0, none⟩ =
        (⟨1, [⟨0, 2, 0, none⟩]⟩, true) := by
  constructor
  · intro index segmentInfos
    by_cases h : segmentInfos.timescale ≠ index.timescale
    · refine ⟨?_, ?_, ?_⟩ <;>
        simp only [BaseIndex._addSegmentInfos, if_pos h]
      refine congrArg (fun x => index.timeline ++ [x]) ?_
      rw [TimelineElement.mk.injEq]
      exact ⟨by ring, by ring, rfl, rfl⟩
    · refine ⟨?_, ?_, ?_⟩ <;>
        simp only [BaseIndex._addSegmentInfos, if_neg h]
  · norm_num [BaseIndex._addSegmentInfos]

/-- The concrete segment-index flavours that can populate the registry. -/
inductive IndexHelpers where
  | smooth
  | timeline
  | template
  | list
  | base
deriving DecidableEq

/-- Build-time feature flags guarding which flavours get registered. -/
structure Features where
  SMOOTH : Bool
  DASH : Bool

/-- Embeds the conditionally populated registry `indexes`: the smooth flavour
under the SMOOTH flag, the four DASH flavours under the DASH flag. -/
def indexes (features : Features) : List (String × IndexHelpers) :=
  (if features.SMOOTH then [("smooth", IndexHelpers.smooth)] else []) ++
    (if features.DASH then
      [("timeline", IndexHelpers.timeline), ("template", IndexHelpers.template),
        ("list", IndexHelpers.list), ("base", IndexHelpers.base)]
    else [])

/-- An index value as far as the resolver is concerned: its type tag. -/
structure TaggedIndex where
  indexType : String

/-- Embeds `getRightIndexHelpers`: the property lookup
`indexes[index.indexType]`, yielding the registered flavour or nothing
(`undefined`) when the tag is not registered. -/
def getRightIndexHelpers (features : Features) (index : TaggedIndex) :
    Option IndexHelpers :=
  (indexes features).lookup index.indexType

theorem lookup_eq_none_of_not_mem_keys {β : Type} (a : String) :
    ∀ l : List (String × β), a ∉ l.map Prod.fst → l.lookup a = none := by
  intro l
  induction l with
  | nil => intro _; rfl
  | cons p rest ih =>
    intro hmem
    obtain ⟨k, v⟩ := p
    have hne : a ≠ k := by
      intro heq
      exact hmem (by simp [heq])
    have hbeq : (a == k) = false := beq_eq_false_iff_ne.mpr hne
    simp only [List.lookup, hbeq]
    exact ih fun hrest => hmem (by simp [List.map_cons]; right; simpa using hrest)

/-- Claim C9: resolver lookup on a tag with no registered flavour yields the absence
value (surfaced `undefined`), never a registered flavour. -/
theorem getRightIndexHelpers_unregistered_none (features : Features)
    (index : TaggedIndex)
    (h : index.indexType ∉ (indexes features).map Prod.fst) :
    getRightIndexHelpers features index = none :=
  lookup_eq_none_of_not_mem_keys index.indexType (indexes features) h

theorem getRightIndexHelpers_unregistered_none_witness :
    ("bogus" ∉ (indexes ⟨true, true⟩).map Prod.fst) ∧
      getRightIndexHelpers ⟨true, true⟩ ⟨"bogus"⟩ = none :=
  ⟨by decide, getRightIndexHelpers_unregistered_none ⟨true, true⟩ ⟨"bogus"⟩ (by decide)⟩

/-- A native text-track cue (`VTTCue`-like): start/end times and an opaque
payload for its content. -/
structure NativeCue where
  startTime : ℚ
  endTime : ℚ
  content : String
deriving DecidableEq

/-- Observable state of the native text-track source buffer: the cue list of
the attached track and the recorded buffered ranges. -/
structure NativeTrackState where
  cues : List NativeCue
  buffered : List (ℚ × ℚ)
deriving DecidableEq

/-- The data object consumed by `_append`: start and end expressed in the
given timescale (the end may be absent), plus the raw text-track payload. -/
structure AppendData where
  timescale : ℚ
  start : ℚ
  «end» : Option ℚ
  data : String
  type : String
  language : String

/-- Comparison against a possibly infinite upper bound (`+Infinity` in the
source's `_remove(from, +Infinity)` call is modelled as `none`). -/
def leBound (a : ℚ) (bound : Option ℚ) : Prop :=
  match bound with
  | none => True
  | some b => a ≤ b

instance (a : ℚ) (bound : Option ℚ) : Decidable (leBound a bound) :=
  match bound with
  | none => isTrue trivial
  | some b => inferInstanceAs (Decidable (a ≤ b))

/-- Modelled from the spec: the buffered-ranges bookkeeping of the abstract
source buffer (a collaborator file not present here); `insert` records the
range and `remove` drops the ranges falling inside the removed window. -/
def bufferedRemove (ranges : List (ℚ × ℚ)) (f : ℚ) (t : Option ℚ) :
    List (ℚ × ℚ) :=
  ranges.filter fun r => ! decide (f ≤ r.1 ∧ leBound r.2 t)

/-- The early-return guard of `_append`: the timescaled end minus the
timescaled start is at most zero (with an absent end, the JavaScript
comparison against NaN is false, so the guard does not fire). -/
def degenerateAppend (data : AppendData) : Prop :=
  match data.«end» with
  | some e => e - data.start ≤ 0
  | none => False

instance (data : AppendData) : Decidable (degenerateAppend data) :=
  match h : data.«end» with
  | none => isFalse (by unfold degenerateAppend; rw [h]; exact id)
  | some e => decidable_of_iff (e - data.start ≤ 0) (by unfold degenerateAppend; rw [h])

namespace NativeTextTrackSourceBuffer

/-- Embeds `_remove`: drop every track cue lying inside `[f, t]` (with
`t = none` standing for the `+Infinity` bound used from `_append`), then
update the buffered ranges. -/
def _remove (st : NativeTrackState) (f : ℚ) (t : Option ℚ) : NativeTrackState :=
  { cues := st.cues.filter fun cue =>
      ! decide (cue.startTime ≥ f ∧ leBound cue.startTime t ∧ leBound cue.endTime t)
    buffered := bufferedRemove st.buffered f t }

/-- Embeds `_append`: return unchanged on a degenerate range; otherwise parse
the payload into cues (parsing is an external collaborator passed as a
function), run the compatibility cleanup when the new cues start before the
last current one, add the cues and record the buffered range. -/
def _append (parse : String → String → String → List NativeCue)
    (st : NativeTrackState) (data : AppendData) : NativeTrackState :=
  if degenerateAppend data then st
  else
    let startTime := data.start / data.timescale
    let endTime := data.«end».map fun e => e / data.timescale
    match parse data.type data.data data.language with
    | [] =>
      match endTime with
      | some et => { st with buffered := st.buffered ++ [(startTime, et)] }
      | none => st
    | firstCue :: restCues =>
      let lastCue := (firstCue :: restCues).getLast (List.cons_ne_nil firstCue restCues)
      let st1 :=
        if st.cues ≠ [] ∧ firstCue.startTime < (st.cues.getLastD firstCue).startTime then
          _remove st firstCue.startTime none
        else st
      { st1 with
        cues := st1.cues ++ firstCue :: restCues
        buffered := st1.buffered ++
          [(startTime,
            match endTime with
            | some et => et
            | none => lastCue.endTime)] }

end NativeTextTrackSourceBuffer

/-- Claim C10: a degenerate append (timescaled end minus timescaled start at most zero)
returns without touching the track cues or the buffered ranges: the whole
observable state is unchanged, for every parser behaviour. -/
theorem native_append_degenerate_noop
    (parse : String → String → String → List NativeCue)
    (st : NativeTrackState) (data : AppendData) (e : ℚ)
    (hend : data.«end» = some e) (hle : e - data.start ≤ 0) :
    NativeTextTrackSourceBuffer._append parse st data = st := by
  have hguard : degenerateAppend data := by
    unfold degenerateAppend
    rw [hend]
    exact hle
  unfold NativeTextTrackSourceBuffer._append
  rw [if_pos hguard]

theorem native_append_degenerate_noop_witness :
    (AppendData.mk 1 5 (some 5) "" "vtt" "en").«end» = some 5 ∧
      (5 : ℚ) - (AppendData.mk 1 5 (some 5) "" "vtt" "en").start ≤ 0 ∧
      NativeTextTrackSourceBuffer._append (fun _ _ _ => [])
          ⟨[⟨0, 1, "a"⟩], [(0, 1)]⟩ (AppendData.mk 1 5 (some 5) "" "vtt" "en") =
        ⟨[⟨0, 1, "a"⟩], [(0, 1)]⟩ :=
  ⟨rfl, by norm_num,
    native_append_degenerate_noop (fun _ _ _ => []) ⟨[⟨0, 1, "a"⟩], [(0, 1)]⟩
      (AppendData.mk 1 5 (some 5) "" "vtt" "en") 5 rfl (by norm_num)⟩
